import Mathlib

/-!
# Verification of `validate-path` (src/lib/pathUtils.ts)

A shallow embedding of the path validation / normalization library.
Strings are modeled as Lean `String`s (sequences of characters); the
Node.js `path` module functions used by the source (`path.normalize`,
`path.isAbsolute`, `path.join`) are embedded in their POSIX flavor:
the embedding models the library running on a POSIX host, where
`platform() ≠ 'win32'`, so `getCurrentOS()` returns `'posix'` and the
`path` module dispatches to `path.posix`.  The `os` option of the
library is independent of the host and is modeled faithfully.
JavaScript's `String.prototype.toLowerCase` is modeled on the ASCII
range (`Char.toLower`).
-/

namespace PathUtils

/-- The `OSType` union type: `'windows' | 'posix' | 'auto'`. -/
inductive OSType
  | windows
  | posix
  | auto
deriving DecidableEq

/-- A resolved operating system (`'windows' | 'posix'`), as produced by
`getCurrentOS` or by resolving the `os` option. -/
inductive OS
  | windows
  | posix
deriving DecidableEq

/-- `getCurrentOS()`: `platform() === 'win32' ? 'windows' : 'posix'`.
The embedding models a POSIX host, so this returns `posix`. -/
def getCurrentOS : OS := OS.posix

/-- Injection of a resolved OS back into the `OSType` union (used when the
source passes the resolved `os` string along, e.g. `normalizePath(pathStr, { os })`). -/
def OS.toOSType : OS → OSType
  | OS.windows => OSType.windows
  | OS.posix => OSType.posix

/-- `options.os === 'auto' || !options.os ? getCurrentOS() : options.os`. -/
def resolveOS : Option OSType → OS
  | some OSType.windows => OS.windows
  | some OSType.posix => OS.posix
  | some OSType.auto => getCurrentOS
  | none => getCurrentOS

/-- `const WINDOWS_MAX_PATH = 260`. -/
def WINDOWS_MAX_PATH : Nat := 260

/-- `const POSIX_MAX_PATH = 4096`. -/
def POSIX_MAX_PATH : Nat := 4096

/-- The character class of the regex `WINDOWS_ILLEGAL_CHARS = /[<>:"|?*\x00-\x1F]/g`. -/
def WINDOWS_ILLEGAL_CHARS (c : Char) : Bool :=
  c = '<' || c = '>' || c = ':' || c = '"' || c = '|' || c = '?' || c = '*' || decide (c.toNat ≤ 0x1F)

/-- The character class of the regex `POSIX_ILLEGAL_CHARS = /\x00/g`. -/
def POSIX_ILLEGAL_CHARS (c : Char) : Bool :=
  decide (c.toNat = 0)

/-- `os === 'windows' ? WINDOWS_ILLEGAL_CHARS : POSIX_ILLEGAL_CHARS`. -/
def illegalCharsFor : OS → Char → Bool
  | OS.windows => WINDOWS_ILLEGAL_CHARS
  | OS.posix => POSIX_ILLEGAL_CHARS

/-- `getMaxPathLength(os)`. -/
def getMaxPathLength : OS → Nat
  | OS.windows => WINDOWS_MAX_PATH
  | OS.posix => POSIX_MAX_PATH

/-- The two-character segment `..`. -/
def dotdot : List Char := ['.', '.']

/-- One step of Node's `normalizeString` segment resolution, on a stack of
segments (head = most recently emitted segment): empty and `.` segments are
skipped, `..` pops a poppable previous segment (kept literally above the root
of a relative path when `allowAbove`, dropped at the root of an absolute
path), and any other segment is pushed. -/
def resolveStep (allowAbove : Bool) (stack : List (List Char)) (seg : List Char) : List (List Char) :=
  if seg = [] ∨ seg = ['.'] then stack
  else if seg = dotdot then
    match stack with
    | [] => if allowAbove then [dotdot] else []
    | t :: rest => if t = dotdot then (if allowAbove then dotdot :: t :: rest else t :: rest) else rest
  else seg :: stack

/-- Resolve a list of raw segments (Node `normalizeString`'s loop), returning
the segments of the lexically resolved path in order. -/
def resolveSegs (allowAbove : Bool) (segs : List (List Char)) : List (List Char) :=
  (segs.foldl (resolveStep allowAbove) []).reverse

/-- Split a character list on the POSIX separator `/` (Node `normalizeString`
scans the string separator by separator). -/
def splitSlash : List Char → List (List Char)
  | [] => [[]]
  | c :: cs =>
    if c = '/' then [] :: splitSlash cs
    else (c :: (splitSlash cs).headI) :: (splitSlash cs).tail

/-- Join segments with the POSIX separator `/`. -/
def joinSlash : List (List Char) → List Char
  | [] => []
  | [s] => s
  | s :: rest => s ++ '/' :: joinSlash rest

/-- Node's `path.posix.normalize`, on character lists: empty input yields `.`;
otherwise the segments are lexically resolved (`..` kept above the root only
for relative paths), and the leading `/` of an absolute path and a single
trailing separator are preserved. -/
def posixNormalizeL (l : List Char) : List Char :=
  if l = [] then ['.']
  else
    let isAbs := l.head? = some '/'
    let trailing := l.getLast? = some '/'
    let body := joinSlash (resolveSegs (!decide isAbs) (splitSlash l))
    if body = [] then
      if isAbs then ['/'] else if trailing then ['.', '/'] else ['.']
    else
      let body2 := if trailing then body ++ ['/'] else body
      if isAbs then '/' :: body2 else body2

/-- Node's `path.posix.normalize` on strings. -/
def posixNormalize (s : String) : String := ⟨posixNormalizeL s.data⟩

/-- Node's `path.posix.isAbsolute`: nonempty and starting with `/`. -/
def posixIsAbsolute (s : String) : Bool := s.data.head? = some '/'

/-- `NormalizationOptions`; absent fields model absent (undefined) properties. -/
structure NormalizationOptions where
  os : Option OSType := none
  forceForwardSlash : Option Bool := none
  removeTrailingSlash : Option Bool := none
  toLowerCase : Option Bool := none
deriving DecidableEq

/-- `normalized.replace(/\\/g, '/')`, per character. -/
def toForwardSlash (c : Char) : Char := if c = '\\' then '/' else c

/-- `normalized.replace(/[/\\]$/, '')`: remove one trailing separator. -/
def stripTrailingSep (l : List Char) : List Char :=
  match l.getLast? with
  | some c => if c = '/' ∨ c = '\\' then l.dropLast else l
  | none => l

/-- `normalizePath(pathStr, options)` from `pathUtils.ts`:
empty input is returned unchanged; otherwise the path is normalized with
`path.normalize`, an exactly-`.` result returns the original input, and then
backslashes are forced to `/` (default on), one trailing separator is removed
when the length exceeds 1 (default on), and the result is lowercased
(default on exactly when the resolved `os` is windows). -/
def normalizePath (pathStr : String) (options : NormalizationOptions := {}) : String :=
  if pathStr = "" then ""
  else
    let os := resolveOS options.os
    let forceForwardSlash := options.forceForwardSlash.getD true
    let removeTrailingSlash := options.removeTrailingSlash.getD true
    let toLowerCase := options.toLowerCase.getD (os = OS.windows)
    let normalized := posixNormalizeL pathStr.data
    if normalized = ['.'] then pathStr
    else
      let n1 := if forceForwardSlash then normalized.map toForwardSlash else normalized
      let n2 := if removeTrailingSlash ∧ n1.length > 1 then stripTrailingSep n1 else n1
      let n3 := if toLowerCase then n2.map Char.toLower else n2
      ⟨n3⟩

/-- `ValidationOptions`; absent fields model absent (undefined) properties. -/
structure ValidationOptions where
  os : Option OSType := none
  allowTraversal : Option Bool := none
  maxLength : Option Nat := none
  allowAbsolute : Option Bool := none
  allowRelative : Option Bool := none
deriving DecidableEq

/-- The error codes emitted by `validatePath` (`ValidationErrorCode`). -/
inductive ValidationErrorCode
  | EMPTY_PATH
  | TOO_LONG
  | ILLEGAL_CHAR
  | TRAVERSAL
  | ABSOLUTE_NOT_ALLOWED
  | RELATIVE_NOT_ALLOWED
deriving DecidableEq

/-- `ValidationError`: code, message, and optional character position. -/
structure ValidationError where
  code : ValidationErrorCode
  message : String
  position : Option Nat := none
deriving DecidableEq

/-- `ValidationResult`: `{isValid: true, normalizedPath}` or
`{isValid: false, errors}`. -/
inductive ValidationResult
  | valid (normalizedPath : String)
  | invalid (errors : List ValidationError)
deriving DecidableEq

/-- `String.prototype.includes`: substring test. -/
def jsIncludes (s sub : String) : Bool := decide (sub.data <:+: s.data)

/-- `validatePath(pathStr, options)` from `pathUtils.ts`. -/
def validatePath (pathStr : String) (options : ValidationOptions := {}) : ValidationResult :=
  let os := resolveOS options.os
  -- options.maxLength || getMaxPathLength(os): a 0 override is falsy in JS
  -- and falls back to the OS default
  let maxLength :=
    match options.maxLength with
    | some n => if n = 0 then getMaxPathLength os else n
    | none => getMaxPathLength os
  let allowTraversal := options.allowTraversal.getD false
  let allowAbsolute := options.allowAbsolute.getD true
  let allowRelative := options.allowRelative.getD true
  if pathStr = "" then
    ValidationResult.invalid [{ code := ValidationErrorCode.EMPTY_PATH, message := "Path cannot be empty" }]
  else
    let errors : List ValidationError :=
      (if pathStr.length > maxLength then
        [{ code := ValidationErrorCode.TOO_LONG,
           message := s!"Path exceeds maximum length of {maxLength} characters" }]
       else [])
      ++ (match pathStr.data.filter (illegalCharsFor os) with
          | [] => []
          | c :: _ =>
            -- pathStr.match(illegalChars): the regexes carry the /g flag, so a
            -- successful match is the array of matched substrings, which has no
            -- index property; position = illegalMatch.index is undefined
            [{ code := ValidationErrorCode.ILLEGAL_CHAR,
               message := "Path contains illegal character: " ++ String.mk [c],
               position := none }])
      ++ (if !allowTraversal && jsIncludes pathStr ".." then
            [{ code := ValidationErrorCode.TRAVERSAL, message := "Path traversal (..) is not allowed" }]
          else [])
      ++ (if posixIsAbsolute pathStr && !allowAbsolute then
            [{ code := ValidationErrorCode.ABSOLUTE_NOT_ALLOWED, message := "Absolute paths are not allowed" }]
          else [])
      ++ (if !(posixIsAbsolute pathStr) && !allowRelative then
            [{ code := ValidationErrorCode.RELATIVE_NOT_ALLOWED, message := "Relative paths are not allowed" }]
          else [])
    if errors = [] then ValidationResult.valid (normalizePath pathStr { os := some os.toOSType })
    else ValidationResult.invalid errors

/-- `joinPaths(...paths)`: Node's `path.posix.join` — empty segments are
skipped, the rest are joined with `/` and the result is normalized; if no
non-empty segment remains the result is `.`. -/
def joinPaths (paths : List String) : String :=
  match paths.filter (fun s => s != "") with
  | [] => "."
  | ps => posixNormalize (String.intercalate "/" ps)

/-- `isPathTraversal(pathStr)` from `pathUtils.ts`. -/
def isPathTraversal (pathStr : String) : Bool :=
  if pathStr = "" then false
  else jsIncludes (normalizePath pathStr) ".."

/-- `sanitizePath(pathStr, os)` from `pathUtils.ts`: remove the illegal
characters of the target OS, then normalize with that OS. -/
def sanitizePath (pathStr : String) (os : OSType := getCurrentOS.toOSType) : String :=
  if pathStr = "" then ""
  else
    let illegalChars := if os = OSType.windows then WINDOWS_ILLEGAL_CHARS else POSIX_ILLEGAL_CHARS
    let sanitized : String := ⟨pathStr.data.filter (fun c => !(illegalChars c))⟩
    normalizePath sanitized { os := some os }

/-- The error list of a result (empty for a valid result). -/
def ValidationResult.errorsOf : ValidationResult → List ValidationError
  | ValidationResult.valid _ => []
  | ValidationResult.invalid es => es

/-- The error codes of a result, in order. -/
def errorCodes (r : ValidationResult) : List ValidationErrorCode :=
  r.errorsOf.map ValidationError.code

/-- The effective length limit of `validatePath`:
`options.maxLength || getMaxPathLength(os)` (a 0 override is falsy in JS). -/
def effMaxLength (opts : ValidationOptions) : Nat :=
  match opts.maxLength with
  | some n => if n = 0 then getMaxPathLength (resolveOS opts.os) else n
  | none => getMaxPathLength (resolveOS opts.os)

/-- The error list accumulated by `validatePath` on a non-empty path, in
check order: length, illegal character, traversal, absolute, relative. -/
def vErrors (p : String) (opts : ValidationOptions) : List ValidationError :=
  (if p.length > effMaxLength opts then
    [{ code := ValidationErrorCode.TOO_LONG,
       message := s!"Path exceeds maximum length of {effMaxLength opts} characters" }]
   else [])
  ++ (match p.data.filter (illegalCharsFor (resolveOS opts.os)) with
      | [] => []
      | c :: _ =>
        [{ code := ValidationErrorCode.ILLEGAL_CHAR,
           message := "Path contains illegal character: " ++ String.mk [c],
           position := none }])
  ++ (if !(opts.allowTraversal.getD false) && jsIncludes p ".." then
        [{ code := ValidationErrorCode.TRAVERSAL, message := "Path traversal (..) is not allowed" }]
      else [])
  ++ (if posixIsAbsolute p && !(opts.allowAbsolute.getD true) then
        [{ code := ValidationErrorCode.ABSOLUTE_NOT_ALLOWED, message := "Absolute paths are not allowed" }]
      else [])
  ++ (if !(posixIsAbsolute p) && !(opts.allowRelative.getD true) then
        [{ code := ValidationErrorCode.RELATIVE_NOT_ALLOWED, message := "Relative paths are not allowed" }]
      else [])

/-- Invariant of the resolution stack: every entry is a source segment or
`..`, entries are nonempty and not `.`, and the `..` entries form a suffix
of the stack (with none at all below the root of an absolute path). -/
def goodStack (allowAbove : Bool) (src : List (List Char)) (st : List (List Char)) : Prop :=
  (∀ s ∈ st, (s ∈ src ∨ s = dotdot) ∧ s ≠ [] ∧ s ≠ ['.']) ∧
  ∃ xs k, st = xs ++ List.replicate k dotdot ∧ dotdot ∉ xs ∧ (allowAbove = false → k = 0)

/-- A canonical segment list: the output shape of `resolveSegs` — no empty or
`.` segments, and all `..` segments at the front (none for an absolute path). -/
def CanonSegs (a : Bool) (L : List (List Char)) : Prop :=
  (∀ s ∈ L, s ≠ [] ∧ s ≠ ['.']) ∧
  ∃ k ys, L = List.replicate k dotdot ++ ys ∧ dotdot ∉ ys ∧ (a = false → k = 0)

/-- Reassembly of a resolved path from its segments, leading `/` and trailing
separator (the shape of every non-degenerate `posixNormalizeL` output). -/
def assemble (isAbs trailing : Bool) (S : List (List Char)) : List Char :=
  if isAbs then '/' :: (if trailing then joinSlash S ++ ['/'] else joinSlash S)
  else (if trailing then joinSlash S ++ ['/'] else joinSlash S)

/-- The `forceForwardSlash` pass. -/
def applyFwd (b : Bool) (l : List Char) : List Char :=
  if b then l.map toForwardSlash else l

/-- The `removeTrailingSlash` pass (applied only when the length exceeds 1). -/
def applyStrip (b : Bool) (l : List Char) : List Char :=
  if b ∧ l.length > 1 then stripTrailingSep l else l

/-- The `toLowerCase` pass. -/
def applyLower (b : Bool) (l : List Char) : List Char :=
  if b then l.map Char.toLower else l


/-! ### Lemmas about `splitSlash` and `joinSlash` -/

theorem splitSlash_ne_nil (l : List Char) : splitSlash l ≠ [] := by
  cases l with
  | nil => simp [splitSlash]
  | cons c cs =>
    simp only [splitSlash]
    split <;> simp

theorem splitSlash_cons_eq {cs : List Char} {t : List Char} {ts : List (List Char)}
    (ht : splitSlash cs = t :: ts) (c : Char) :
    splitSlash (c :: cs) = if c = '/' then [] :: t :: ts else (c :: t) :: ts := by
  simp only [splitSlash, ht, List.headI, List.tail_cons]

theorem splitSlash_no_slash {l : List Char} : ∀ s ∈ splitSlash l, '/' ∉ s := by
  induction l with
  | nil =>
    intro s hs
    simp only [splitSlash, List.mem_singleton] at hs
    simp [hs]
  | cons c cs ih =>
    intro s hs
    obtain ⟨t, ts, ht⟩ := List.exists_cons_of_ne_nil (splitSlash_ne_nil cs)
    rw [splitSlash_cons_eq ht] at hs
    by_cases hc : c = '/'
    · rw [if_pos hc] at hs
      rcases List.mem_cons.mp hs with rfl | hs
      · exact List.not_mem_nil _
      · exact ih s (ht ▸ hs)
    · rw [if_neg hc] at hs
      rcases List.mem_cons.mp hs with rfl | hs
      · intro hmem
        rcases List.mem_cons.mp hmem with h' | h'
        · exact hc h'.symm
        · exact ih t (ht ▸ List.mem_cons_self t ts) h'
      · exact ih s (ht ▸ List.mem_cons_of_mem t hs)

theorem splitSlash_chars {l : List Char} {s : List Char} (hs : s ∈ splitSlash l) :
    ∀ c ∈ s, c ∈ l := by
  induction l generalizing s with
  | nil =>
    simp only [splitSlash, List.mem_singleton] at hs
    simp [hs]
  | cons a as ih =>
    obtain ⟨t, ts, ht⟩ := List.exists_cons_of_ne_nil (splitSlash_ne_nil as)
    rw [splitSlash_cons_eq ht] at hs
    intro c hc
    by_cases ha : a = '/'
    · rw [if_pos ha] at hs
      rcases List.mem_cons.mp hs with rfl | hs
      · exact absurd hc (List.not_mem_nil c)
      · exact List.mem_cons_of_mem a (ih (ht ▸ hs) c hc)
    · rw [if_neg ha] at hs
      rcases List.mem_cons.mp hs with rfl | hs
      · rcases List.mem_cons.mp hc with rfl | hc
        · exact List.mem_cons_self c as
        · exact List.mem_cons_of_mem a (ih (ht ▸ List.mem_cons_self t ts) c hc)
      · exact List.mem_cons_of_mem a (ih (ht ▸ List.mem_cons_of_mem t hs) c hc)

theorem splitSlash_of_no_slash {s : List Char} (h : '/' ∉ s) : splitSlash s = [s] := by
  induction s with
  | nil => rfl
  | cons c cs ih =>
    have hc : c ≠ '/' := fun hc => h (hc ▸ List.mem_cons_self c cs)
    have hcs : '/' ∉ cs := fun hm => h (List.mem_cons_of_mem c hm)
    rw [splitSlash_cons_eq (ih hcs), if_neg hc]

theorem splitSlash_append_sep {s : List Char} (h : '/' ∉ s) (r : List Char) :
    splitSlash (s ++ '/' :: r) = s :: splitSlash r := by
  induction s with
  | nil =>
    obtain ⟨t, ts, ht⟩ := List.exists_cons_of_ne_nil (splitSlash_ne_nil r)
    rw [List.nil_append, splitSlash_cons_eq ht, if_pos rfl, ht]
  | cons c cs ih =>
    have hc : c ≠ '/' := fun hc => h (hc ▸ List.mem_cons_self c cs)
    have hcs : '/' ∉ cs := fun hm => h (List.mem_cons_of_mem c hm)
    rw [List.cons_append, splitSlash_cons_eq (ih hcs), if_neg hc]

theorem joinSlash_cons_cons (s x : List Char) (rest : List (List Char)) :
    joinSlash (s :: x :: rest) = s ++ '/' :: joinSlash (x :: rest) := rfl

theorem splitSlash_joinSlash {L : List (List Char)} (hne : L ≠ [])
    (h : ∀ s ∈ L, '/' ∉ s) : splitSlash (joinSlash L) = L := by
  induction L with
  | nil => exact absurd rfl hne
  | cons s rest ih =>
    cases rest with
    | nil => exact splitSlash_of_no_slash (h s (List.mem_cons_self s []))
    | cons x rest' =>
      rw [joinSlash_cons_cons, splitSlash_append_sep (h s (List.mem_cons_self s _)),
        ih (List.cons_ne_nil x rest') (fun t ht => h t (List.mem_cons_of_mem s ht))]

theorem joinSlash_concat {L : List (List Char)} (hne : L ≠ []) (x : List Char) :
    joinSlash (L ++ [x]) = joinSlash L ++ '/' :: x := by
  induction L with
  | nil => exact absurd rfl hne
  | cons s rest ih =>
    cases rest with
    | nil => rfl
    | cons y rest' =>
      show joinSlash (s :: y :: (rest' ++ [x])) = (s ++ '/' :: joinSlash (y :: rest')) ++ '/' :: x
      rw [joinSlash_cons_cons]
      have ih2 : joinSlash (y :: (rest' ++ [x])) = joinSlash (y :: rest') ++ '/' :: x :=
        ih (List.cons_ne_nil y rest')
      rw [ih2]
      simp

theorem joinSlash_chars {L : List (List Char)} {c : Char} (hc : c ∈ joinSlash L) :
    (∃ s ∈ L, c ∈ s) ∨ c = '/' := by
  induction L with
  | nil => exact absurd hc (List.not_mem_nil c)
  | cons s rest ih =>
    cases rest with
    | nil => exact Or.inl ⟨s, List.mem_cons_self s [], hc⟩
    | cons x rest' =>
      rw [joinSlash_cons_cons] at hc
      rcases List.mem_append.mp hc with h | h
      · exact Or.inl ⟨s, List.mem_cons_self s _, h⟩
      · rcases List.mem_cons.mp h with rfl | h
        · exact Or.inr rfl
        · rcases ih h with ⟨t, ht, hct⟩ | h'
          · exact Or.inl ⟨t, List.mem_cons_of_mem s ht, hct⟩
          · exact Or.inr h'

theorem joinSlash_ne_nil {L : List (List Char)} (hne : L ≠ [])
    (h : ∀ s ∈ L, s ≠ []) : joinSlash L ≠ [] := by
  cases L with
  | nil => exact absurd rfl hne
  | cons s rest =>
    cases rest with
    | nil => exact h s (List.mem_cons_self s [])
    | cons x rest' =>
      rw [joinSlash_cons_cons]
      intro hx
      rcases List.append_eq_nil.mp hx with ⟨-, h2⟩
      exact List.cons_ne_nil _ _ h2

theorem joinSlash_head? {s : List Char} (hs : s ≠ []) (L : List (List Char)) :
    (joinSlash (s :: L)).head? = s.head? := by
  cases L with
  | nil => rfl
  | cons x rest =>
    rw [joinSlash_cons_cons, List.head?_append]
    cases s with
    | nil => exact absurd rfl hs
    | cons a as => rfl

theorem getLast?_cons_of_ne_nil {α : Type} {l : List α} (h : l ≠ []) (a : α) :
    (a :: l).getLast? = l.getLast? := by
  cases hl : l.getLast? with
  | none => exact absurd (List.getLast?_eq_none_iff.mp hl) h
  | some c =>
    rw [show a :: l = [a] ++ l from rfl, List.getLast?_append, hl, Option.or_some]

theorem joinSlash_getLast_mem {L : List (List Char)} (hne : L ≠ [])
    (h : ∀ s ∈ L, s ≠ []) :
    ∀ c, (joinSlash L).getLast? = some c → ∃ s ∈ L, c ∈ s := by
  induction L with
  | nil => exact absurd rfl hne
  | cons s rest ih =>
    cases rest with
    | nil =>
      intro c hc
      exact ⟨s, List.mem_cons_self s [], List.mem_of_getLast?_eq_some hc⟩
    | cons x rest' =>
      intro c hc
      have hj : joinSlash (x :: rest') ≠ [] :=
        joinSlash_ne_nil (List.cons_ne_nil x rest') (fun t ht => h t (List.mem_cons_of_mem s ht))
      rw [joinSlash_cons_cons, List.getLast?_append, getLast?_cons_of_ne_nil hj '/'] at hc
      cases hj' : (joinSlash (x :: rest')).getLast? with
      | none => exact absurd (List.getLast?_eq_none_iff.mp hj') hj
      | some d =>
        rw [hj', Option.or_some] at hc
        injection hc with hdc
        subst hdc
        obtain ⟨t, ht, hct⟩ :=
          ih (List.cons_ne_nil x rest') (fun t ht => h t (List.mem_cons_of_mem s ht)) _ hj'
        exact ⟨t, List.mem_cons_of_mem s ht, hct⟩

/-! ### Invariants of segment resolution -/

theorem resolveStep_skip {a : Bool} {st : List (List Char)} {seg : List Char}
    (h : seg = [] ∨ seg = ['.']) : resolveStep a st seg = st := by
  rw [resolveStep.eq_def, if_pos h]

theorem resolveStep_dd_nil (a : Bool) :
    resolveStep a [] dotdot = if a then [dotdot] else [] := by
  rw [resolveStep.eq_def, if_neg (by simp [dotdot]), if_pos rfl]

theorem resolveStep_dd_cons (a : Bool) (t : List Char) (rest : List (List Char)) :
    resolveStep a (t :: rest) dotdot =
      if t = dotdot then (if a then dotdot :: t :: rest else t :: rest) else rest := by
  rw [resolveStep.eq_def, if_neg (by simp [dotdot]), if_pos rfl]

theorem resolveStep_push {a : Bool} {st : List (List Char)} {seg : List Char}
    (h1 : seg ≠ []) (h2 : seg ≠ ['.']) (h3 : seg ≠ dotdot) :
    resolveStep a st seg = seg :: st := by
  rw [resolveStep.eq_def, if_neg (not_or.mpr ⟨h1, h2⟩), if_neg h3]


theorem resolveStep_good {a : Bool} {src st : List (List Char)} (h : goodStack a src st)
    {seg : List Char} (hseg : seg ∈ src) : goodStack a src (resolveStep a st seg) := by
  obtain ⟨hmem, xs, k, hst, hxs, hk⟩ := h
  by_cases h0 : seg = [] ∨ seg = ['.']
  · rw [resolveStep_skip h0]
    exact ⟨hmem, xs, k, hst, hxs, hk⟩
  · push_neg at h0
    by_cases hdd : seg = dotdot
    · subst hdd
      cases st with
      | nil =>
        cases a with
        | false =>
          rw [resolveStep_dd_nil, if_neg (by decide)]
          exact ⟨fun s hs => absurd hs (List.not_mem_nil s), [], 0, rfl, List.not_mem_nil _,
            fun _ => rfl⟩
        | true =>
          rw [resolveStep_dd_nil, if_pos rfl]
          refine ⟨fun s hs => ?_, [], 1, rfl, List.not_mem_nil _, fun hf => by cases hf⟩
          rw [List.mem_singleton] at hs
          subst hs
          exact ⟨Or.inr rfl, by simp [dotdot], by simp [dotdot]⟩
      | cons t rest =>
        rw [resolveStep_dd_cons]
        by_cases ht : t = dotdot
        · rw [if_pos ht]
          cases a with
          | false =>
            rw [if_neg (by decide)]
            exact ⟨hmem, xs, k, hst, hxs, hk⟩
          | true =>
            rw [if_pos rfl]
            have hxs0 : xs = [] := by
              cases xs with
              | nil => rfl
              | cons x xs' =>
                rw [List.cons_append] at hst
                injection hst with h1 _
                refine absurd ?_ hxs
                rw [← h1, ht]
                exact List.mem_cons_self dotdot xs' 
            subst hxs0
            rw [List.nil_append] at hst
            refine ⟨fun s hs => ?_, [], k + 1, ?_, List.not_mem_nil _, fun hf => by cases hf⟩
            · rcases List.mem_cons.mp hs with rfl | hs
              · exact ⟨Or.inr rfl, by simp [dotdot], by simp [dotdot]⟩
              · exact hmem s hs
            · rw [List.nil_append, List.replicate_succ, ← hst]
        · rw [if_neg ht]
          cases xs with
          | nil =>
            exfalso
            cases k with
            | zero => simp at hst
            | succ k' =>
              rw [List.nil_append, List.replicate_succ] at hst
              injection hst with h1 _
              exact ht h1
          | cons x xs' =>
            rw [List.cons_append] at hst
            injection hst with h1 h2
            exact ⟨fun s hs => hmem s (h2 ▸ List.mem_cons_of_mem t (h2 ▸ hs)),
              xs', k, h2, fun hm => hxs (List.mem_cons_of_mem x hm), hk⟩
    · rw [resolveStep_push h0.1 h0.2 hdd]
      refine ⟨fun s hs => ?_, seg :: xs, k, by rw [hst, List.cons_append], ?_, hk⟩
      · rcases List.mem_cons.mp hs with rfl | hs
        · exact ⟨Or.inl hseg, h0.1, h0.2⟩
        · exact hmem s hs
      · intro hm
        rcases List.mem_cons.mp hm with h' | h'
        · exact hdd h'.symm
        · exact hxs h'

theorem foldl_resolveStep_good {a : Bool} {src : List (List Char)} :
    ∀ {segs st : List (List Char)}, (∀ s ∈ segs, s ∈ src) → goodStack a src st →
      goodStack a src (segs.foldl (resolveStep a) st)
  | [], _, _, h => h
  | seg :: segs, st, hsegs, h => by
    rw [List.foldl_cons]
    exact foldl_resolveStep_good (fun s hs => hsegs s (List.mem_cons_of_mem seg hs))
      (resolveStep_good h (hsegs seg (List.mem_cons_self seg segs)))


theorem resolveSegs_spec (a : Bool) (segs : List (List Char)) :
    CanonSegs a (resolveSegs a segs) ∧ ∀ s ∈ resolveSegs a segs, s ∈ segs ∨ s = dotdot := by
  have h := @foldl_resolveStep_good a segs segs []
    (fun _ hs => hs)
    ⟨fun s hs => absurd hs (List.not_mem_nil s), [], 0, rfl, List.not_mem_nil _, fun _ => rfl⟩
  obtain ⟨hmem, xs, k, hst, hxs, hk⟩ := h
  unfold resolveSegs
  refine ⟨⟨fun s hs => ?_, k, xs.reverse, ?_, ?_, hk⟩, fun s hs => ?_⟩
  · rw [List.mem_reverse] at hs
    exact (hmem s hs).2
  · rw [hst, List.reverse_append, List.reverse_replicate]
  · rw [List.mem_reverse]
    exact hxs
  · rw [List.mem_reverse] at hs
    exact (hmem s hs).1

theorem foldl_dots (k j : Nat) :
    List.foldl (resolveStep true) (List.replicate j dotdot) (List.replicate k dotdot) =
      List.replicate (k + j) dotdot := by
  induction k generalizing j with
  | zero => simp
  | succ k' ih =>
    rw [List.replicate_succ, List.foldl_cons]
    have hstep : resolveStep true (List.replicate j dotdot) dotdot =
        List.replicate (j + 1) dotdot := by
      cases j with
      | zero =>
        rw [List.replicate_zero, resolveStep_dd_nil, if_pos rfl]
        rfl
      | succ j' =>
        rw [List.replicate_succ, resolveStep_dd_cons, if_pos rfl, if_pos rfl,
          ← List.replicate_succ, ← List.replicate_succ]
    rw [hstep, ih (j + 1)]
    congr 1
    omega

theorem foldl_plain {a : Bool} {ys : List (List Char)}
    (h : ∀ y ∈ ys, y ≠ [] ∧ y ≠ ['.'] ∧ y ≠ dotdot) :
    ∀ st, List.foldl (resolveStep a) st ys = ys.reverse ++ st := by
  induction ys with
  | nil => simp
  | cons y ys' ih =>
    intro st
    rw [List.foldl_cons]
    have hy := h y (List.mem_cons_self y ys')
    rw [resolveStep_push hy.1 hy.2.1 hy.2.2,
      ih (fun y' hy' => h y' (List.mem_cons_of_mem y hy')), List.reverse_cons,
      List.append_assoc, List.singleton_append]

theorem resolveSegs_fixpoint {a : Bool} {L : List (List Char)} (h : CanonSegs a L) :
    resolveSegs a L = L := by
  obtain ⟨hL, k, ys, hLeq, hys, hk⟩ := h
  unfold resolveSegs
  rw [hLeq, List.foldl_append]
  have hdots : List.foldl (resolveStep a) [] (List.replicate k dotdot) =
      List.replicate k dotdot := by
    cases a with
    | true => simpa using foldl_dots k 0
    | false => rw [hk rfl]; rfl
  rw [hdots,
    foldl_plain (fun y hy => ⟨(hL y (hLeq ▸ List.mem_append_right _ hy)).1,
      (hL y (hLeq ▸ List.mem_append_right _ hy)).2, fun hcon => hys (hcon ▸ hy)⟩)]
  rw [List.reverse_append, List.reverse_replicate, List.reverse_reverse]

theorem resolveSegs_cons_nil (a : Bool) (segs : List (List Char)) :
    resolveSegs a ([] :: segs) = resolveSegs a segs := by
  unfold resolveSegs
  rw [List.foldl_cons, resolveStep_skip (Or.inl rfl)]

theorem resolveSegs_concat_nil (a : Bool) (segs : List (List Char)) :
    resolveSegs a (segs ++ [[]]) = resolveSegs a segs := by
  unfold resolveSegs
  rw [List.foldl_append, List.foldl_cons, resolveStep_skip (Or.inl rfl), List.foldl_nil]

/-! ### Structure of `posixNormalizeL` outputs -/

theorem splitSlash_cons_slash (cs : List Char) : splitSlash ('/' :: cs) = [] :: splitSlash cs := by
  obtain ⟨t, ts, ht⟩ := List.exists_cons_of_ne_nil (splitSlash_ne_nil cs)
  rw [splitSlash_cons_eq ht, if_pos rfl, ht]

theorem posixNormalizeL_eq {l : List Char} (hl : l ≠ []) :
    posixNormalizeL l =
      if joinSlash (resolveSegs (!decide (l.head? = some '/')) (splitSlash l)) = [] then
        (if l.head? = some '/' then ['/']
         else if l.getLast? = some '/' then ['.', '/'] else ['.'])
      else
        (if l.head? = some '/' then
          '/' :: (if l.getLast? = some '/' then
              joinSlash (resolveSegs (!decide (l.head? = some '/')) (splitSlash l)) ++ ['/']
            else joinSlash (resolveSegs (!decide (l.head? = some '/')) (splitSlash l)))
         else
          (if l.getLast? = some '/' then
              joinSlash (resolveSegs (!decide (l.head? = some '/')) (splitSlash l)) ++ ['/']
            else joinSlash (resolveSegs (!decide (l.head? = some '/')) (splitSlash l)))) := by
  rw [posixNormalizeL, if_neg hl]


theorem posixNormalizeL_form (l : List Char) :
    posixNormalizeL l = ['.'] ∨ posixNormalizeL l = ['/'] ∨ posixNormalizeL l = ['.', '/'] ∨
    ∃ S : List (List Char), ∃ isAbs trailing : Bool,
      CanonSegs (!isAbs) S ∧ S ≠ [] ∧
      (∀ s ∈ S, s ≠ [] ∧ s ≠ ['.'] ∧ '/' ∉ s) ∧
      (∀ s ∈ S, s ∈ splitSlash l ∨ s = dotdot) ∧
      posixNormalizeL l = assemble isAbs trailing S := by
  by_cases hl : l = []
  · subst hl
    exact Or.inl rfl
  · obtain ⟨hcan, hmem⟩ := resolveSegs_spec (!decide (l.head? = some '/')) (splitSlash l)
    rw [posixNormalizeL_eq hl]
    by_cases hbody : joinSlash (resolveSegs (!decide (l.head? = some '/')) (splitSlash l)) = []
    · rw [if_pos hbody]
      split_ifs with h1 h2
      · exact Or.inr (Or.inl rfl)
      · exact Or.inr (Or.inr (Or.inl rfl))
      · exact Or.inl rfl
    · rw [if_neg hbody]
      refine Or.inr (Or.inr (Or.inr
        ⟨resolveSegs (!decide (l.head? = some '/')) (splitSlash l),
         decide (l.head? = some '/'), decide (l.getLast? = some '/'),
         hcan, ?_, ?_, hmem, ?_⟩))
      · intro hS
        exact hbody (by rw [hS]; rfl)
      · intro s hs
        refine ⟨((resolveSegs_spec _ _).1.1 s hs).1, ((resolveSegs_spec _ _).1.1 s hs).2, ?_⟩
        rcases hmem s hs with hsrc | rfl
        · exact splitSlash_no_slash s hsrc
        · simp [dotdot]
      · rw [assemble]
        simp only [decide_eq_true_eq]

/-- The assembled form of a canonical segment list is a fixed point of
`posixNormalizeL`. -/
theorem posixNormalizeL_assemble {S : List (List Char)} {isAbs trailing : Bool}
    (hcan : CanonSegs (!isAbs) S) (hne : S ≠ [])
    (hseg : ∀ s ∈ S, s ≠ [] ∧ s ≠ ['.'] ∧ '/' ∉ s) :
    posixNormalizeL (assemble isAbs trailing S) = assemble isAbs trailing S := by
  have hbody : joinSlash S ≠ [] := joinSlash_ne_nil hne (fun s hs => (hseg s hs).1)
  have hhead : (joinSlash S).head? ≠ some '/' := by
    cases S with
    | nil => exact absurd rfl hne
    | cons s0 S' =>
      rw [joinSlash_head? (hseg s0 (List.mem_cons_self s0 S')).1]
      cases s0 with
      | nil => exact absurd rfl (hseg _ (List.mem_cons_self _ _)).1
      | cons c0 s0' =>
        intro hcon
        injection hcon with hc0
        exact (hseg _ (List.mem_cons_self _ _)).2.2 (hc0 ▸ List.mem_cons_self c0 s0')
  have hlast : (joinSlash S).getLast? ≠ some '/' := by
    intro h
    obtain ⟨s, hsS, hcs⟩ := joinSlash_getLast_mem hne (fun s hs => (hseg s hs).1) '/' h
    exact (hseg s hsS).2.2 hcs
  have hsplit : splitSlash (joinSlash S) = S :=
    splitSlash_joinSlash hne (fun s hs => (hseg s hs).2.2)
  have hsplit2 : splitSlash (joinSlash S ++ ['/']) = S ++ [[]] := by
    have h1 : joinSlash S ++ ['/'] = joinSlash (S ++ [[]]) := by
      rw [joinSlash_concat hne]
    rw [h1]
    refine splitSlash_joinSlash (by simp) ?_
    intro s hs
    rcases List.mem_append.mp hs with h | h
    · exact (hseg s h).2.2
    · rw [List.mem_singleton.mp h]
      exact List.not_mem_nil '/'
  cases isAbs with
  | false =>
    cases trailing with
    | false =>
      show posixNormalizeL (joinSlash S) = joinSlash S
      rw [posixNormalizeL_eq hbody, decide_eq_false hhead, Bool.not_false, hsplit,
        resolveSegs_fixpoint (by simpa using hcan), if_neg hbody, if_neg hhead, if_neg hlast]
    | true =>
      show posixNormalizeL (joinSlash S ++ ['/']) = joinSlash S ++ ['/']
      have ho : joinSlash S ++ ['/'] ≠ [] := by simp
      have hP : ¬((joinSlash S ++ ['/']).head? = some '/') := by
        rw [List.head?_append_of_ne_nil _ hbody]
        exact hhead
      have hQ : (joinSlash S ++ ['/']).getLast? = some '/' := List.getLast?_concat _
      rw [posixNormalizeL_eq ho, decide_eq_false hP, Bool.not_false, hsplit2,
        resolveSegs_concat_nil, resolveSegs_fixpoint (by simpa using hcan),
        if_neg hbody, if_neg hP, if_pos hQ]
  | true =>
    cases trailing with
    | false =>
      show posixNormalizeL ('/' :: joinSlash S) = '/' :: joinSlash S
      have hP : ('/' :: joinSlash S).head? = some '/' := rfl
      have hQ : ¬(('/' :: joinSlash S).getLast? = some '/') := by
        rw [getLast?_cons_of_ne_nil hbody]
        exact hlast
      rw [posixNormalizeL_eq (List.cons_ne_nil _ _), decide_eq_true hP, Bool.not_true,
        splitSlash_cons_slash, hsplit, resolveSegs_cons_nil,
        resolveSegs_fixpoint (by simpa using hcan), if_neg hbody, if_pos hP, if_neg hQ]
    | true =>
      show posixNormalizeL ('/' :: (joinSlash S ++ ['/'])) = '/' :: (joinSlash S ++ ['/'])
      have hP : ('/' :: (joinSlash S ++ ['/'])).head? = some '/' := rfl
      have hQ : ('/' :: (joinSlash S ++ ['/'])).getLast? = some '/' := by
        rw [getLast?_cons_of_ne_nil (by simp)]
        exact List.getLast?_concat _
      rw [posixNormalizeL_eq (List.cons_ne_nil _ _), decide_eq_true hP, Bool.not_true,
        splitSlash_cons_slash, hsplit2, resolveSegs_cons_nil, resolveSegs_concat_nil,
        resolveSegs_fixpoint (by simpa using hcan), if_neg hbody, if_pos hP, if_pos hQ]

theorem posixNormalizeL_idem (l : List Char) :
    posixNormalizeL (posixNormalizeL l) = posixNormalizeL l := by
  rcases posixNormalizeL_form l with h | h | h | ⟨S, isAbs, trailing, hcan, hne, hseg, -, h⟩
  · rw [h]; decide
  · rw [h]; decide
  · rw [h]; decide
  · rw [h]
    exact posixNormalizeL_assemble hcan hne hseg

theorem assemble_ne_nil {S : List (List Char)} (isAbs trailing : Bool)
    (h : joinSlash S ≠ []) : assemble isAbs trailing S ≠ [] := by
  cases isAbs <;> cases trailing <;> simp [assemble, h]

theorem posixNormalizeL_ne_nil (l : List Char) : posixNormalizeL l ≠ [] := by
  rcases posixNormalizeL_form l with h | h | h | ⟨S, isAbs, trailing, -, hne, hseg, -, h⟩ <;>
    rw [h]
  · simp
  · simp
  · simp
  · exact assemble_ne_nil isAbs trailing (joinSlash_ne_nil hne (fun s hs => (hseg s hs).1))

theorem posixNormalizeL_chars {l : List Char} :
    ∀ c ∈ posixNormalizeL l, c ∈ l ∨ c = '/' ∨ c = '.' := by
  rcases posixNormalizeL_form l with h | h | h | ⟨S, isAbs, trailing, -, hne, hseg, hmem, h⟩ <;>
    rw [h] <;> intro c hc
  · simp at hc
    exact Or.inr (Or.inr hc)
  · simp at hc
    exact Or.inr (Or.inl hc)
  · rcases List.mem_cons.mp hc with rfl | hc
    · exact Or.inr (Or.inr rfl)
    · simp at hc
      exact Or.inr (Or.inl hc)
  · have hjoin : ∀ d ∈ joinSlash S, d ∈ l ∨ d = '/' ∨ d = '.' := by
      intro d hd
      rcases joinSlash_chars hd with ⟨s, hsS, hds⟩ | h'
      · rcases hmem s hsS with hsrc | rfl
        · exact Or.inl (splitSlash_chars hsrc d hds)
        · simp [dotdot] at hds
          exact Or.inr (Or.inr hds)
      · exact Or.inr (Or.inl h')
    have : c ∈ joinSlash S ∨ c = '/' := by
      cases isAbs <;> cases trailing <;> simp [assemble, List.mem_cons, List.mem_append] at hc <;>
        tauto
    rcases this with hc' | rfl
    · exact hjoin c hc'
    · exact Or.inr (Or.inl rfl)

/-! ### Facts about ASCII lowercasing -/

theorem toNat_ofNat_lt {n : Nat} (h : n < 55296) : (Char.ofNat n).toNat = n := by
  rw [Char.ofNat, dif_pos (Or.inl h)]
  rfl

theorem toLower_spec (c : Char) :
    Char.toLower c = c ∨
      (97 ≤ (Char.toLower c).toNat ∧ (Char.toLower c).toNat ≤ 122 ∧
        65 ≤ c.toNat ∧ c.toNat ≤ 90) := by
  by_cases h : c.toNat ≥ 65 ∧ c.toNat ≤ 90
  · right
    have he : Char.toLower c = Char.ofNat (c.toNat + 32) := by
      show (if c.toNat ≥ 65 ∧ c.toNat ≤ 90 then Char.ofNat (c.toNat + 32) else c) = _
      rw [if_pos h]
    rw [he, toNat_ofNat_lt (by omega)]
    exact ⟨by omega, by omega, h.1, h.2⟩
  · left
    show (if c.toNat ≥ 65 ∧ c.toNat ≤ 90 then Char.ofNat (c.toNat + 32) else c) = c
    rw [if_neg h]

theorem toLower_eq_low {c d : Char} (hd : d.toNat < 97) (h : Char.toLower c = d) : c = d := by
  rcases toLower_spec c with h' | ⟨h1, -⟩
  · rw [← h', h]
  · rw [h] at h1
    omega

theorem toLower_of_low {c : Char} (h : c.toNat < 65) : Char.toLower c = c := by
  show (if c.toNat ≥ 65 ∧ c.toNat ≤ 90 then Char.ofNat (c.toNat + 32) else c) = c
  rw [if_neg (by omega)]

theorem toLower_toLower (c : Char) : Char.toLower (Char.toLower c) = Char.toLower c := by
  rcases toLower_spec c with h | ⟨h1, h2, -⟩
  · rw [h]
    exact h
  · show (if (Char.toLower c).toNat ≥ 65 ∧ (Char.toLower c).toNat ≤ 90 then
        Char.ofNat ((Char.toLower c).toNat + 32) else Char.toLower c) = Char.toLower c
    rw [if_neg (by omega)]

theorem map_toLower_eq_dot {s : List Char} (h : s.map Char.toLower = ['.']) : s = ['.'] := by
  cases s with
  | nil => simp at h
  | cons c cs =>
    cases cs with
    | nil =>
      simp only [List.map_cons, List.map_nil, List.cons.injEq, and_true] at h
      rw [toLower_eq_low (by decide) h]
    | cons d ds => simp at h

theorem map_toLower_eq_dotdot {s : List Char} (h : s.map Char.toLower = dotdot) : s = dotdot := by
  cases s with
  | nil => simp [dotdot] at h
  | cons c cs =>
    cases cs with
    | nil => simp [dotdot] at h
    | cons d ds =>
      cases ds with
      | nil =>
        simp only [dotdot, List.map_cons, List.map_nil, List.cons.injEq, and_true] at h
        rw [dotdot, toLower_eq_low (by decide) h.1, toLower_eq_low (by decide) h.2]
      | cons e es => simp [dotdot] at h

theorem mem_map_toLower_slash {s : List Char} (h : '/' ∈ s.map Char.toLower) : '/' ∈ s := by
  obtain ⟨c, hc, hlc⟩ := List.mem_map.mp h
  rwa [← toLower_eq_low (by decide) hlc]

theorem mem_map_toLower_backslash {s : List Char} (h : '\\' ∈ s.map Char.toLower) : '\\' ∈ s := by
  obtain ⟨c, hc, hlc⟩ := List.mem_map.mp h
  rwa [← toLower_eq_low (by decide) hlc]

/-! ### The post-processing passes of `normalizePath` -/




theorem normalizePath_eq {p : String} (hp : p ≠ "") (opts : NormalizationOptions) :
    normalizePath p opts =
      if posixNormalizeL p.data = ['.'] then p
      else
        ⟨applyLower (opts.toLowerCase.getD (resolveOS opts.os = OS.windows))
          (applyStrip (opts.removeTrailingSlash.getD true)
            (applyFwd (opts.forceForwardSlash.getD true) (posixNormalizeL p.data)))⟩ := by
  rw [normalizePath, if_neg hp]
  rfl

theorem applyFwd_of_no_backslash {b : Bool} {l : List Char} (h : '\\' ∉ l) :
    applyFwd b l = l := by
  rw [applyFwd]
  split_ifs
  · have h1 : l.map toForwardSlash = l.map id :=
      List.map_congr_left (fun c hc => by
        rw [toForwardSlash, if_neg (fun he : c = '\\' => h (he ▸ hc))]
        rfl)
    rw [h1, List.map_id]
  · rfl

theorem stripTrailingSep_concat_slash (x : List Char) :
    stripTrailingSep (x ++ ['/']) = x := by
  have h1 : (x ++ ['/']).getLast? = some '/' := List.getLast?_concat _
  simp only [stripTrailingSep, h1]
  rw [if_pos (Or.inl trivial), List.dropLast_concat]

theorem stripTrailingSep_of_getLast_ne {l : List Char}
    (h : ∀ c, l.getLast? = some c → c ≠ '/' ∧ c ≠ '\\') : stripTrailingSep l = l := by
  cases hl : l.getLast? with
  | none => simp only [stripTrailingSep, hl]
  | some c =>
    simp only [stripTrailingSep, hl]
    rw [if_neg]
    rintro (rfl | rfl)
    · exact (h _ hl).1 rfl
    · exact (h _ hl).2 rfl

/-! ### The assembled form under the post-processing passes -/

theorem joinSlash_ne_dot {S : List (List Char)} (hne : S ≠ [])
    (hseg : ∀ s ∈ S, s ≠ [] ∧ s ≠ ['.']) : joinSlash S ≠ ['.'] := by
  cases S with
  | nil => exact absurd rfl hne
  | cons s rest =>
    cases rest with
    | nil => exact (hseg s (List.mem_cons_self s [])).2
    | cons x rest' =>
      rw [joinSlash_cons_cons]
      cases hs : s with
      | nil => exact absurd hs (hseg s (List.mem_cons_self s _)).1
      | cons c s' =>
        intro hcon
        rw [List.cons_append] at hcon
        injection hcon with h1 h2
        exact List.append_ne_nil_of_right_ne_nil s' (List.cons_ne_nil '/' _) h2

theorem assemble_ne_dot {S : List (List Char)} (isAbs tr : Bool) (hne : S ≠ [])
    (hseg : ∀ s ∈ S, s ≠ [] ∧ s ≠ ['.']) : assemble isAbs tr S ≠ ['.'] := by
  have hjne : joinSlash S ≠ [] := joinSlash_ne_nil hne (fun s hs => (hseg s hs).1)
  cases isAbs with
  | true =>
    cases tr <;> simp only [assemble, if_pos rfl] <;> simp
  | false =>
    cases tr with
    | false =>
      simp only [assemble, if_neg (by decide : ¬((false : Bool) = true)), if_neg]
      exact joinSlash_ne_dot hne hseg
    | true =>
      simp only [assemble]
      intro hcon
      have := congrArg List.length hcon
      simp at this
      exact hjne this

theorem mem_assemble {S : List (List Char)} {isAbs tr : Bool} {c : Char}
    (hc : c ∈ assemble isAbs tr S) : (∃ s ∈ S, c ∈ s) ∨ c = '/' := by
  cases isAbs with
  | false =>
    cases tr with
    | false => exact joinSlash_chars hc
    | true =>
      have hc' : c ∈ joinSlash S ++ ['/'] := hc
      rcases List.mem_append.mp hc' with h | h
      · exact joinSlash_chars h
      · exact Or.inr (List.mem_singleton.mp h)
  | true =>
    cases tr with
    | false =>
      have hc' : c ∈ '/' :: joinSlash S := hc
      rcases List.mem_cons.mp hc' with rfl | h
      · exact Or.inr rfl
      · exact joinSlash_chars h
    | true =>
      have hc' : c ∈ '/' :: (joinSlash S ++ ['/']) := hc
      rcases List.mem_cons.mp hc' with rfl | h
      · exact Or.inr rfl
      · rcases List.mem_append.mp h with h | h
        · exact joinSlash_chars h
        · exact Or.inr (List.mem_singleton.mp h)

theorem assemble_no_backslash {S : List (List Char)} (isAbs tr : Bool)
    (hbs : ∀ s ∈ S, '\\' ∉ s) : '\\' ∉ assemble isAbs tr S := by
  intro hc
  rcases mem_assemble hc with ⟨s, hs, hcs⟩ | h
  · exact hbs s hs hcs
  · exact absurd h (by decide)

theorem assemble_getLast_ne {S : List (List Char)} (isAbs : Bool) (hne : S ≠ [])
    (hseg : ∀ s ∈ S, s ≠ [] ∧ s ≠ ['.'] ∧ '/' ∉ s) (hbs : ∀ s ∈ S, '\\' ∉ s) :
    ∀ c, (assemble isAbs false S).getLast? = some c → c ≠ '/' ∧ c ≠ '\\' := by
  have hjne : joinSlash S ≠ [] := joinSlash_ne_nil hne (fun s hs => (hseg s hs).1)
  intro c hc
  have hmem : ∃ s ∈ S, c ∈ s := by
    cases isAbs with
    | false =>
      exact joinSlash_getLast_mem hne (fun s hs => (hseg s hs).1) c hc
    | true =>
      rw [show assemble true false S = '/' :: joinSlash S from rfl,
        getLast?_cons_of_ne_nil hjne] at hc
      exact joinSlash_getLast_mem hne (fun s hs => (hseg s hs).1) c hc
  obtain ⟨s, hs, hcs⟩ := hmem
  exact ⟨fun he => (hseg s hs).2.2 (he ▸ hcs), fun he => hbs s hs (he ▸ hcs)⟩

theorem applyStrip_assemble_false {S : List (List Char)} (b isAbs : Bool) (hne : S ≠ [])
    (hseg : ∀ s ∈ S, s ≠ [] ∧ s ≠ ['.'] ∧ '/' ∉ s) (hbs : ∀ s ∈ S, '\\' ∉ s) :
    applyStrip b (assemble isAbs false S) = assemble isAbs false S := by
  rw [applyStrip]
  split_ifs
  · exact stripTrailingSep_of_getLast_ne (assemble_getLast_ne isAbs hne hseg hbs)
  · rfl

theorem assemble_true_length {S : List (List Char)} (isAbs : Bool)
    (hjne : joinSlash S ≠ []) : 1 < (assemble isAbs true S).length := by
  have := List.length_pos.mpr hjne
  cases isAbs with
  | false =>
    simp [assemble]
    omega
  | true => simp [assemble]

theorem stripTrailingSep_assemble_true {S : List (List Char)} (isAbs : Bool) :
    stripTrailingSep (assemble isAbs true S) = assemble isAbs false S := by
  cases isAbs with
  | false => exact stripTrailingSep_concat_slash _
  | true =>
    show stripTrailingSep (('/' :: joinSlash S) ++ ['/']) = '/' :: joinSlash S
    exact stripTrailingSep_concat_slash _

/-! ### Lowercasing the assembled form -/

theorem joinSlash_map_toLower (S : List (List Char)) :
    joinSlash (S.map (List.map Char.toLower)) = (joinSlash S).map Char.toLower := by
  induction S with
  | nil => rfl
  | cons s rest ih =>
    cases rest with
    | nil => rfl
    | cons x rest' =>
      rw [List.map_cons, List.map_cons]
      rw [show joinSlash (s.map Char.toLower :: x.map Char.toLower :: rest'.map (List.map Char.toLower)) =
        s.map Char.toLower ++ '/' :: joinSlash (x.map Char.toLower :: rest'.map (List.map Char.toLower)) from rfl]
      rw [show (x.map Char.toLower :: rest'.map (List.map Char.toLower)) =
        (x :: rest').map (List.map Char.toLower) from rfl, ih]
      rw [joinSlash_cons_cons, List.map_append, List.map_cons]
      rfl

theorem assemble_map_toLower (isAbs tr : Bool) (S : List (List Char)) :
    (assemble isAbs tr S).map Char.toLower = assemble isAbs tr (S.map (List.map Char.toLower)) := by
  cases isAbs <;> cases tr <;>
    simp [assemble, joinSlash_map_toLower, List.map_append]

theorem canonSegs_map_toLower {a : Bool} {S : List (List Char)} (h : CanonSegs a S) :
    CanonSegs a (S.map (List.map Char.toLower)) := by
  obtain ⟨hmem, k, ys, heq, hys, hk⟩ := h
  refine ⟨?_, k, ys.map (List.map Char.toLower), ?_, ?_, hk⟩
  · intro s hs
    obtain ⟨t, ht, rfl⟩ := List.mem_map.mp hs
    refine ⟨by simp [(hmem t ht).1], fun hcon => (hmem t ht).2 (map_toLower_eq_dot hcon)⟩
  · rw [heq, List.map_append, List.map_replicate]
    have : (dotdot : List Char).map Char.toLower = dotdot := by decide
    rw [this]
  · intro hcon
    obtain ⟨t, ht, hteq⟩ := List.mem_map.mp hcon
    exact hys (map_toLower_eq_dotdot hteq ▸ ht)

theorem segProps_map_toLower {S : List (List Char)}
    (hseg : ∀ s ∈ S, s ≠ [] ∧ s ≠ ['.'] ∧ '/' ∉ s) :
    ∀ s ∈ S.map (List.map Char.toLower), s ≠ [] ∧ s ≠ ['.'] ∧ '/' ∉ s := by
  intro s hs
  obtain ⟨t, ht, rfl⟩ := List.mem_map.mp hs
  exact ⟨by simp [(hseg t ht).1], fun hcon => (hseg t ht).2.1 (map_toLower_eq_dot hcon),
    fun hcon => (hseg t ht).2.2 (mem_map_toLower_slash hcon)⟩

theorem backslash_map_toLower {S : List (List Char)} (hbs : ∀ s ∈ S, '\\' ∉ s) :
    ∀ s ∈ S.map (List.map Char.toLower), '\\' ∉ s := by
  intro s hs
  obtain ⟨t, ht, rfl⟩ := List.mem_map.mp hs
  exact fun hcon => hbs t ht (mem_map_toLower_backslash hcon)

theorem map_toLower_fix {S : List (List Char)} :
    ∀ s ∈ S.map (List.map Char.toLower), s.map Char.toLower = s := by
  intro s hs
  obtain ⟨t, ht, rfl⟩ := List.mem_map.mp hs
  rw [List.map_map]
  exact List.map_congr_left (fun c _ => toLower_toLower c)

/-! ### `normalizePath` is idempotent on backslash-free input -/

theorem string_mk_ne_empty {l : List Char} (h : l ≠ []) : (⟨l⟩ : String) ≠ "" :=
  fun hcon => h (congrArg String.data hcon)

theorem normalizePath_assemble_fix {S : List (List Char)} {isAbs tr : Bool}
    {opts : NormalizationOptions}
    (hcan : CanonSegs (!isAbs) S) (hne : S ≠ [])
    (hseg : ∀ s ∈ S, s ≠ [] ∧ s ≠ ['.'] ∧ '/' ∉ s)
    (hbs : ∀ s ∈ S, '\\' ∉ s)
    (hlow : opts.toLowerCase.getD (resolveOS opts.os = OS.windows) = true →
      ∀ s ∈ S, s.map Char.toLower = s)
    (htr : tr = true → opts.removeTrailingSlash.getD true = false) :
    normalizePath ⟨assemble isAbs tr S⟩ opts = ⟨assemble isAbs tr S⟩ := by
  have hjne : joinSlash S ≠ [] := joinSlash_ne_nil hne (fun s hs => (hseg s hs).1)
  have hane : assemble isAbs tr S ≠ [] := assemble_ne_nil isAbs tr hjne
  rw [normalizePath_eq (string_mk_ne_empty hane) opts]
  have hdata : (⟨assemble isAbs tr S⟩ : String).data = assemble isAbs tr S := rfl
  rw [hdata, posixNormalizeL_assemble hcan hne hseg,
    if_neg (assemble_ne_dot isAbs tr hne (fun s hs => ⟨(hseg s hs).1, (hseg s hs).2.1⟩)),
    applyFwd_of_no_backslash (assemble_no_backslash isAbs tr hbs)]
  have hstrip : applyStrip (opts.removeTrailingSlash.getD true) (assemble isAbs tr S) =
      assemble isAbs tr S := by
    cases hb : opts.removeTrailingSlash.getD true with
    | false => rw [applyStrip, if_neg (by simp)]
    | true =>
      have htr2 : tr = false := by
        cases htt : tr
        · rfl
        · rw [htr htt] at hb
          simp at hb
      subst htr2
      exact applyStrip_assemble_false true isAbs hne hseg hbs
  rw [hstrip]
  cases hl : opts.toLowerCase.getD (resolveOS opts.os = OS.windows) with
  | false => rw [applyLower, if_neg (by simp)]
  | true =>
    have hmap : S.map (List.map Char.toLower) = S := by
      rw [show S.map (List.map Char.toLower) = S.map id from
        List.map_congr_left (fun s hs => hlow hl s hs), List.map_id]
    rw [applyLower, if_pos rfl, assemble_map_toLower, hmap]

theorem normalizePath_dot (opts : NormalizationOptions) :
    normalizePath ⟨['.']⟩ opts = ⟨['.']⟩ := by
  rw [normalizePath_eq (by decide) opts, if_pos (by decide)]

theorem normalizePath_slash (opts : NormalizationOptions) :
    normalizePath ⟨['/']⟩ opts = ⟨['/']⟩ := by
  rw [normalizePath_eq (by decide) opts, if_neg (by decide)]
  have h1 : posixNormalizeL (⟨['/']⟩ : String).data = ['/'] := by decide
  have h2 : ∀ b, applyFwd b ['/'] = ['/'] := fun b => by cases b <;> decide
  have h3 : ∀ b, applyStrip b ['/'] = ['/'] := fun b => by cases b <;> decide
  have h4 : ∀ b, applyLower b ['/'] = ['/'] := fun b => by cases b <;> decide
  rw [h1, h2, h3, h4]

theorem normalizePath_dotslash {opts : NormalizationOptions}
    (h : opts.removeTrailingSlash.getD true = false) :
    normalizePath ⟨['.', '/']⟩ opts = ⟨['.', '/']⟩ := by
  rw [normalizePath_eq (by decide) opts, if_neg (by decide)]
  have h1 : posixNormalizeL (⟨['.', '/']⟩ : String).data = ['.', '/'] := by decide
  have h2 : ∀ b, applyFwd b ['.', '/'] = ['.', '/'] := fun b => by cases b <;> decide
  have h4 : ∀ b, applyLower b ['.', '/'] = ['.', '/'] := fun b => by cases b <;> decide
  rw [h1, h2, h, applyStrip, if_neg (by simp), h4]

theorem normalizePath_idem (p : String) (opts : NormalizationOptions) (hbs : '\\' ∉ p.data) :
    normalizePath (normalizePath p opts) opts = normalizePath p opts := by
  by_cases hp : p = ""
  · subst hp
    have h0 : normalizePath "" opts = "" := by rw [normalizePath, if_pos rfl]
    rw [h0, h0]
  · rcases posixNormalizeL_form p.data with hform | hform | hform |
      ⟨S, isAbs, trailing, hcan, hne, hseg, hmem, hform⟩
    · have h1 : normalizePath p opts = p := by rw [normalizePath_eq hp, if_pos hform]
      rw [h1]
      exact h1
    · have h1 : normalizePath p opts = ⟨['/']⟩ := by
        rw [normalizePath_eq hp, if_neg (by rw [hform]; decide), hform]
        have h2 : ∀ b, applyFwd b ['/'] = ['/'] := fun b => by cases b <;> decide
        have h3 : ∀ b, applyStrip b ['/'] = ['/'] := fun b => by cases b <;> decide
        have h4 : ∀ b, applyLower b ['/'] = ['/'] := fun b => by cases b <;> decide
        rw [h2, h3, h4]
      rw [h1, normalizePath_slash]
    · cases hrt : opts.removeTrailingSlash.getD true with
      | true =>
        have h1 : normalizePath p opts = ⟨['.']⟩ := by
          rw [normalizePath_eq hp, if_neg (by rw [hform]; decide), hform]
          have h2 : ∀ b, applyFwd b ['.', '/'] = ['.', '/'] := fun b => by cases b <;> decide
          have h3 : applyStrip true ['.', '/'] = ['.'] := by decide
          have h4 : ∀ b, applyLower b ['.'] = ['.'] := fun b => by cases b <;> decide
          rw [h2, hrt, h3, h4]
        rw [h1, normalizePath_dot]
      | false =>
        have h1 : normalizePath p opts = ⟨['.', '/']⟩ := by
          rw [normalizePath_eq hp, if_neg (by rw [hform]; decide), hform]
          have h2 : ∀ b, applyFwd b ['.', '/'] = ['.', '/'] := fun b => by cases b <;> decide
          have h4 : ∀ b, applyLower b ['.', '/'] = ['.', '/'] := fun b => by cases b <;> decide
          rw [h2, hrt, applyStrip, if_neg (by simp), h4]
        rw [h1, normalizePath_dotslash hrt]
    · have hsegbs : ∀ s ∈ S, '\\' ∉ s := by
        intro s hs hc
        rcases hmem s hs with hsrc | rfl
        · exact hbs (splitSlash_chars hsrc _ hc)
        · simp [dotdot] at hc
      have hnedot : posixNormalizeL p.data ≠ ['.'] := by
        rw [hform]
        exact assemble_ne_dot isAbs trailing hne (fun s hs => ⟨(hseg s hs).1, (hseg s hs).2.1⟩)
      obtain ⟨tr2, h2, htr2⟩ :
          ∃ tr2, applyStrip (opts.removeTrailingSlash.getD true) (assemble isAbs trailing S) =
            assemble isAbs tr2 S ∧ (tr2 = true → opts.removeTrailingSlash.getD true = false) := by
        cases hrm : opts.removeTrailingSlash.getD true with
        | false => exact ⟨trailing, by rw [applyStrip, if_neg (by simp)], fun _ => rfl⟩
        | true =>
          cases trailing with
          | false =>
            refine ⟨false, ?_, fun hcon => by simp at hcon⟩
            exact applyStrip_assemble_false true isAbs hne hseg hsegbs
          | true =>
            refine ⟨false, ?_, fun hcon => by simp at hcon⟩
            rw [applyStrip, if_pos ⟨rfl, assemble_true_length isAbs
              (joinSlash_ne_nil hne (fun s hs => (hseg s hs).1))⟩,
              stripTrailingSep_assemble_true]
      cases hlw : opts.toLowerCase.getD (resolveOS opts.os = OS.windows) with
      | false =>
        have h1 : normalizePath p opts = ⟨assemble isAbs tr2 S⟩ := by
          rw [normalizePath_eq hp, if_neg hnedot, hform,
            applyFwd_of_no_backslash (assemble_no_backslash isAbs trailing hsegbs), h2, hlw,
            applyLower, if_neg (by simp)]
        rw [h1]
        exact normalizePath_assemble_fix hcan hne hseg hsegbs
          (fun hcon => absurd hcon (by simp [hlw])) htr2
      | true =>
        have h1 : normalizePath p opts =
            ⟨assemble isAbs tr2 (S.map (List.map Char.toLower))⟩ := by
          rw [normalizePath_eq hp, if_neg hnedot, hform,
            applyFwd_of_no_backslash (assemble_no_backslash isAbs trailing hsegbs), h2, hlw,
            applyLower, if_pos rfl, assemble_map_toLower]
        rw [h1]
        exact normalizePath_assemble_fix (canonSegs_map_toLower hcan)
          (fun hcon => hne (List.map_eq_nil_iff.mp hcon))
          (segProps_map_toLower hseg) (backslash_map_toLower hsegbs)
          (fun _ => map_toLower_fix) htr2

/-! ### Nonemptiness and character closure of `normalizePath` -/

theorem toNat_inj {a b : Char} (h : a.toNat = b.toNat) : a = b :=
  Char.ext (UInt32.toNat.inj h)

theorem stripTrailingSep_ne_nil {l : List Char} (h : 1 < l.length) : stripTrailingSep l ≠ [] := by
  cases hl : l.getLast? with
  | none =>
    simp only [stripTrailingSep, hl]
    intro hcon
    rw [hcon] at h
    simp at h
  | some c =>
    simp only [stripTrailingSep, hl]
    split_ifs
    · intro hcon
      have hlen := congrArg List.length hcon
      rw [List.length_dropLast] at hlen
      simp at hlen
      omega
    · intro hcon
      rw [hcon] at h
      simp at h

theorem applyFwd_ne_nil {b : Bool} {l : List Char} (h : l ≠ []) : applyFwd b l ≠ [] := by
  rw [applyFwd]
  split_ifs
  · simp [h]
  · exact h

theorem applyStrip_ne_nil {b : Bool} {l : List Char} (h : l ≠ []) : applyStrip b l ≠ [] := by
  rw [applyStrip]
  split_ifs with hc
  · exact stripTrailingSep_ne_nil hc.2
  · exact h

theorem applyLower_ne_nil {b : Bool} {l : List Char} (h : l ≠ []) : applyLower b l ≠ [] := by
  rw [applyLower]
  split_ifs
  · simp [h]
  · exact h

theorem normalizePath_ne_empty {p : String} (hp : p ≠ "") (opts : NormalizationOptions) :
    normalizePath p opts ≠ "" := by
  rw [normalizePath_eq hp]
  split_ifs with hd
  · exact hp
  · exact string_mk_ne_empty
      (applyLower_ne_nil (applyStrip_ne_nil (applyFwd_ne_nil (posixNormalizeL_ne_nil p.data))))

theorem mem_stripTrailingSep {l : List Char} {c : Char} (h : c ∈ stripTrailingSep l) : c ∈ l := by
  cases hl : l.getLast? with
  | none => simpa only [stripTrailingSep, hl] using h
  | some d =>
    simp only [stripTrailingSep, hl] at h
    split_ifs at h
    · exact List.dropLast_subset l h
    · exact h

theorem normalizePath_chars {p : String} {opts : NormalizationOptions} {P : Char → Prop}
    (hP : ∀ c ∈ p.data, P c) (hslash : P '/') (hdot : P '.')
    (hlow : ∀ c, P c → P (Char.toLower c)) :
    ∀ c ∈ (normalizePath p opts).data, P c := by
  by_cases hp : p = ""
  · subst hp
    intro c hc
    have h0 : normalizePath "" opts = "" := by rw [normalizePath, if_pos rfl]
    rw [h0] at hc
    exact absurd hc (List.not_mem_nil c)
  · rw [normalizePath_eq hp]
    split_ifs with hd
    · exact hP
    · have h1 : ∀ c ∈ posixNormalizeL p.data, P c := by
        intro c hc
        rcases posixNormalizeL_chars c hc with h | h | h
        · exact hP c h
        · rw [h]
          exact hslash
        · rw [h]
          exact hdot
      have h2 : ∀ c ∈ applyFwd (opts.forceForwardSlash.getD true) (posixNormalizeL p.data), P c := by
        intro c hc
        rw [applyFwd] at hc
        split_ifs at hc
        · obtain ⟨d, hd2, rfl⟩ := List.mem_map.mp hc
          rw [toForwardSlash]
          split_ifs
          · exact hslash
          · exact h1 d hd2
        · exact h1 c hc
      have h3 : ∀ c ∈ applyStrip (opts.removeTrailingSlash.getD true)
          (applyFwd (opts.forceForwardSlash.getD true) (posixNormalizeL p.data)), P c := by
        intro c hc
        rw [applyStrip] at hc
        split_ifs at hc
        · exact h2 c (mem_stripTrailingSep hc)
        · exact h2 c hc
      intro c hc
      have hc2 : c ∈ applyLower (opts.toLowerCase.getD (resolveOS opts.os = OS.windows))
          (applyStrip (opts.removeTrailingSlash.getD true)
            (applyFwd (opts.forceForwardSlash.getD true) (posixNormalizeL p.data))) := hc
      rw [applyLower] at hc2
      split_ifs at hc2
      · obtain ⟨d, hd2, rfl⟩ := List.mem_map.mp hc2
        exact hlow d (h3 d hd2)
      · exact h3 c hc2

/-! ### The illegal character classes survive lowercasing -/

theorem WINDOWS_ILLEGAL_CHARS_toLower {c : Char} (h : WINDOWS_ILLEGAL_CHARS c = false) :
    WINDOWS_ILLEGAL_CHARS (Char.toLower c) = false := by
  rcases toLower_spec c with he | ⟨h1, h2, -⟩
  · rw [he]
    exact h
  · have hne : ∀ d : Char, d.toNat < 97 ∨ 122 < d.toNat → ¬(Char.toLower c = d) := by
      intro d hd he2
      have h3 := congrArg Char.toNat he2
      omega
    simp only [WINDOWS_ILLEGAL_CHARS, Bool.or_eq_false_iff, decide_eq_false_iff_not]
    refine ⟨⟨⟨⟨⟨⟨⟨?_, ?_⟩, ?_⟩, ?_⟩, ?_⟩, ?_⟩, ?_⟩, ?_⟩
    · exact hne '<' (by left; decide)
    · exact hne '>' (by left; decide)
    · exact hne ':' (by left; decide)
    · exact hne '"' (by left; decide)
    · exact hne '|' (by right; decide)
    · exact hne '?' (by left; decide)
    · exact hne '*' (by left; decide)
    · omega

theorem POSIX_ILLEGAL_CHARS_toLower {c : Char} (h : POSIX_ILLEGAL_CHARS c = false) :
    POSIX_ILLEGAL_CHARS (Char.toLower c) = false := by
  rcases toLower_spec c with he | ⟨h1, h2, -⟩
  · rw [he]
    exact h
  · rw [POSIX_ILLEGAL_CHARS]
    exact decide_eq_false (by omega)

/-! ### The error list of `validatePath` -/

theorem validatePath_empty (opts : ValidationOptions) :
    validatePath "" opts =
      ValidationResult.invalid
        [{ code := ValidationErrorCode.EMPTY_PATH, message := "Path cannot be empty" }] := rfl

theorem validatePath_eq {p : String} (hp : p ≠ "") (opts : ValidationOptions) :
    validatePath p opts =
      if vErrors p opts = [] then
        ValidationResult.valid (normalizePath p { os := some (resolveOS opts.os).toOSType })
      else ValidationResult.invalid (vErrors p opts) := by
  rw [validatePath, if_neg hp]
  rfl

/-! ### Supporting characterizations for the validator claims -/

theorem intercalate_single (s : String) : String.intercalate "/" [s] = s := rfl

theorem vErrors_nil_of_default {p : String}
    (htrav : jsIncludes p ".." = false)
    (hleg : ∀ c ∈ p.data, illegalCharsFor getCurrentOS c = false)
    (hlen : p.length ≤ getMaxPathLength getCurrentOS) :
    vErrors p {} = [] := by
  rw [vErrors]
  have heff : effMaxLength ({} : ValidationOptions) = getMaxPathLength getCurrentOS := rfl
  have hfil : p.data.filter (illegalCharsFor (resolveOS ({} : ValidationOptions).os)) = [] := by
    refine List.filter_eq_nil_iff.mpr (fun c hc => ?_)
    rw [show illegalCharsFor (resolveOS ({} : ValidationOptions).os) =
      illegalCharsFor getCurrentOS from rfl, hleg c hc]
    simp
  rw [heff, if_neg (by omega), hfil, htrav]
  simp

theorem TOO_LONG_mem_vErrors {p : String} {opts : ValidationOptions} :
    ValidationErrorCode.TOO_LONG ∈ (vErrors p opts).map ValidationError.code ↔
      effMaxLength opts < p.length := by
  rw [vErrors]
  simp only [List.map_append, List.mem_append]
  constructor
  · rintro ((((h | h) | h) | h) | h)
    · by_cases hlen : p.length > effMaxLength opts
      · omega
      · rw [if_neg hlen] at h
        simp at h
    · exfalso
      cases hf : p.data.filter (illegalCharsFor (resolveOS opts.os)) with
      | nil =>
        rw [hf] at h
        simp at h
      | cons c cs =>
        rw [hf] at h
        simp at h
    · exfalso
      split_ifs at h <;> simp at h
    · exfalso
      split_ifs at h <;> simp at h
    · exfalso
      split_ifs at h <;> simp at h
  · intro hlen
    left; left; left; left
    rw [if_pos (by omega)]
    simp

/-! ## The claims -/

/-- C1 (corrected) — counterexample: on a POSIX host, backslashes are not
separators for `path.normalize` but are rewritten to `/` afterwards, so
normalizing a second time can resolve `..` segments the first pass left:
`normalizePath('a\..\b')` is `'a/../b'`, which renormalizes to `'b'`. -/
theorem C1_counterexample :
    normalizePath (normalizePath "a\\..\\b" {}) {} ≠ normalizePath "a\\..\\b" {} := by
  decide

/-- C1 (amended): for every options value, `normalizePath` is idempotent on
every input that contains no backslash character:
`normalizePath(normalizePath(p, opts), opts) = normalizePath(p, opts)`. -/
theorem C1_normalizePath_idempotent_no_backslash (p : String) (opts : NormalizationOptions)
    (hbs : '\\' ∉ p.data) :
    normalizePath (normalizePath p opts) opts = normalizePath p opts :=
  normalizePath_idem p opts hbs

/-- Witness for C1 at a concrete input. -/
theorem C1_witness :
    normalizePath (normalizePath "a/b/../c" {}) {} = normalizePath "a/b/../c" {} :=
  C1_normalizePath_idempotent_no_backslash "a/b/../c" {} (by decide)

/-- C2 (confirmed): every non-empty string without the substring `..`,
without illegal characters of the resolved OS (POSIX on this host), and
within the effective length limit validates successfully with default
options, and the result carries the non-empty `normalizedPath` computed by
`normalizePath` under the resolved OS's default normalization options. -/
theorem C2_validatePath_default_valid (p : String) (hne : p ≠ "")
    (htrav : jsIncludes p ".." = false)
    (hleg : ∀ c ∈ p.data, illegalCharsFor getCurrentOS c = false)
    (hlen : p.length ≤ getMaxPathLength getCurrentOS) :
    validatePath p {} = ValidationResult.valid (normalizePath p { os := some OSType.posix }) ∧
      normalizePath p { os := some OSType.posix } ≠ "" := by
  constructor
  · rw [validatePath_eq hne, if_pos (vErrors_nil_of_default htrav hleg hlen)]
    rfl
  · exact normalizePath_ne_empty hne _

/-- Witness for C2 at a concrete input. -/
theorem C2_witness :
    validatePath "path/to/file.txt" {} =
      ValidationResult.valid (normalizePath "path/to/file.txt" { os := some OSType.posix }) ∧
      normalizePath "path/to/file.txt" { os := some OSType.posix } ≠ "" :=
  C2_validatePath_default_valid "path/to/file.txt" (by decide) (by decide) (by decide) (by decide)

/-- C3 (code bug): `validatePath('path/to/file?.txt', {os:'windows'})` emits
exactly one `ILLEGAL_CHAR` error, but its `position` is `undefined` (`none`),
not the index 12 of the first illegal character `?`: the source matches with
a `/g`-flagged regex, and `String.match` with a global regex returns an array
of matched substrings that has no `index` property. -/
theorem C3_illegal_char_position_undefined :
    validatePath "path/to/file?.txt" { os := some OSType.windows } =
      ValidationResult.invalid
        [{ code := ValidationErrorCode.ILLEGAL_CHAR,
           message := "Path contains illegal character: ?", position := none }] ∧
    "path/to/file?.txt".data.findIdx WINDOWS_ILLEGAL_CHARS = 12 := by
  decide

/-- C4 (corrected) — counterexample: in the error list for
`'../path/to/file?.txt'` with `{os:'windows'}`, `ILLEGAL_CHAR` is at index 0
and `TRAVERSAL` at index 1, so `TRAVERSAL` is not ordered before
`ILLEGAL_CHAR`. -/
theorem C4_counterexample :
    (errorCodes (validatePath "../path/to/file?.txt" { os := some OSType.windows })).indexOf
        ValidationErrorCode.ILLEGAL_CHAR = 0 ∧
    (errorCodes (validatePath "../path/to/file?.txt" { os := some OSType.windows })).indexOf
        ValidationErrorCode.TRAVERSAL = 1 := by
  decide

/-- C4 (amended): `validatePath('../path/to/file?.txt', {os:'windows'})` is
invalid and its error list contains both `ILLEGAL_CHAR` and `TRAVERSAL`, in
that order (the illegal-character check runs before the traversal check). -/
theorem C4_traversal_and_illegal_char :
    errorCodes (validatePath "../path/to/file?.txt" { os := some OSType.windows }) =
      [ValidationErrorCode.ILLEGAL_CHAR, ValidationErrorCode.TRAVERSAL] := by
  decide

/-- C5 (corrected) — counterexample: `isPathTraversal('a..b')` is `true`, not
`false`: `'a..b'` normalizes to itself, which still contains the substring
`..`. -/
theorem C5_counterexample : isPathTraversal "a..b" = true := by decide

/-- C5 (amended): `validatePath('a..b')` with `allowTraversal` false emits a
`TRAVERSAL` error and `isPathTraversal('a..b')` also returns `true`; the two
checks disagree instead on inputs like `'a/../b'`, which the Validator flags
but `isPathTraversal` does not. -/
theorem C5_traversal_checks_divergence :
    errorCodes (validatePath "a..b" { allowTraversal := some false }) =
      [ValidationErrorCode.TRAVERSAL] ∧
    isPathTraversal "a..b" = true ∧
    errorCodes (validatePath "a/../b" { allowTraversal := some false }) =
      [ValidationErrorCode.TRAVERSAL] ∧
    isPathTraversal "a/../b" = false := by
  decide

/-- C6 (confirmed): `isPathTraversal` returns `false` on the empty string,
and on every non-empty string returns exactly whether `normalizePath` with
default options still contains the substring `..`; in particular it flags
`'path/./to/../../../file.txt'` and not `'./path/to/file.txt'`. -/
theorem C6_isPathTraversal_spec :
    isPathTraversal "" = false ∧
    (∀ p : String, p ≠ "" → isPathTraversal p = jsIncludes (normalizePath p {}) "..") ∧
    isPathTraversal "path/./to/../../../file.txt" = true ∧
    isPathTraversal "./path/to/file.txt" = false := by
  refine ⟨rfl, ?_, by decide, by decide⟩
  intro p hp
  rw [isPathTraversal, if_neg hp]

/-- Witness for C6 at a concrete input. -/
theorem C6_witness : isPathTraversal "a" = jsIncludes (normalizePath "a" {}) ".." :=
  C6_isPathTraversal_spec.2.1 "a" (by decide)

/-- C7 (confirmed): `validatePath` on the empty string returns, for every
options value, an invalid result whose error list is exactly the single
`EMPTY_PATH` error. -/
theorem C7_empty_path (opts : ValidationOptions) :
    validatePath "" opts =
      ValidationResult.invalid
        [{ code := ValidationErrorCode.EMPTY_PATH, message := "Path cannot be empty" }] :=
  validatePath_empty opts

/-- C8 (corrected) — counterexample: a provided `maxLength` of 0 is ignored
(`options.maxLength || default` treats 0 as falsy): `'a'` is strictly longer
than 0 yet validates successfully, with no `TOO_LONG` error. -/
theorem C8_counterexample :
    validatePath "a" { maxLength := some 0 } = ValidationResult.valid "a" ∧
    ValidationErrorCode.TOO_LONG ∉ errorCodes (validatePath "a" { maxLength := some 0 }) := by
  decide

/-- C8 (amended): a provided nonzero `maxLength` replaces the OS RuleSet
default as the effective limit: `TOO_LONG` is emitted exactly when the input
is strictly longer than it. A provided 0 is falsy in JS and falls back to
the default. -/
theorem C8_maxLength_override (p : String) (opts : ValidationOptions) (n : Nat)
    (hml : opts.maxLength = some n) (hn : 0 < n) :
    ValidationErrorCode.TOO_LONG ∈ errorCodes (validatePath p opts) ↔ n < p.length := by
  have heff : effMaxLength opts = n := by
    rw [effMaxLength, hml]
    exact if_neg (by omega)
  by_cases hp : p = ""
  · subst hp
    rw [validatePath_empty]
    simp [errorCodes, ValidationResult.errorsOf, String.length]
  · rw [validatePath_eq hp]
    split_ifs with hv
    · simp only [errorCodes, ValidationResult.errorsOf, List.map_nil, List.not_mem_nil,
        false_iff, not_lt]
      by_cases hlen : p.length > effMaxLength opts
      · exfalso
        have h1 := TOO_LONG_mem_vErrors.mpr hlen
        rw [hv] at h1
        simp at h1
      · omega
    · rw [errorCodes, ValidationResult.errorsOf, TOO_LONG_mem_vErrors, heff]

/-- Witness for C8 at a concrete input. -/
theorem C8_witness :
    ValidationErrorCode.TOO_LONG ∈ errorCodes (validatePath "abc" { maxLength := some 2 }) :=
  (C8_maxLength_override "abc" { maxLength := some 2 } 2 rfl (by decide)).mpr (by decide)

/-- C9 (corrected) — counterexample: `joinPaths` with a single segment does
not return it unchanged: the joined result is normalized, so
`joinPaths('a//b')` is `'a/b'`. -/
theorem C9_counterexample : joinPaths ["a//b"] ≠ "a//b" := by decide

/-- C9 (amended): `joinPaths()` returns `'.'`; with one non-empty segment it
returns `path.normalize` of that segment (the segment unchanged only when
already normal); empty segments are skipped and the remaining segments are
joined with the separator and the result normalized, so
`joinPaths('path','','file.txt')` is `'path/file.txt'`. -/
theorem C9_joinPaths_spec :
    joinPaths [] = "." ∧
    (∀ s : String, s ≠ "" → joinPaths [s] = posixNormalize s) ∧
    (∀ ps : List String, ps.filter (fun s => s != "") ≠ [] →
      joinPaths ps = posixNormalize (String.intercalate "/" (ps.filter (fun s => s != "")))) ∧
    joinPaths ["path", "", "file.txt"] = "path/file.txt" := by
  have hgen : ∀ ps : List String, ps.filter (fun s => s != "") ≠ [] →
      joinPaths ps = posixNormalize (String.intercalate "/" (ps.filter (fun s => s != ""))) := by
    intro ps hps
    rw [joinPaths.eq_def]
    cases hf : ps.filter (fun s => s != "") with
    | nil => exact absurd hf hps
    | cons q qs => rfl
  refine ⟨rfl, ?_, hgen, by decide⟩
  intro s hs
  have hf : [s].filter (fun t => t != "") = [s] := by simp [hs]
  rw [hgen [s] (by rw [hf]; exact List.cons_ne_nil s []), hf, intercalate_single]

/-- Witness for C9 at concrete inputs. -/
theorem C9_witness : joinPaths ["path"] = posixNormalize "path" :=
  C9_joinPaths_spec.2.1 "path" (by decide)

/-- C10 (confirmed): for every input and target OS, `sanitizePath` returns a
string free of that OS's illegal characters: the deletion pass removes every
occurrence and normalization (separator rewriting, trailing-separator
removal, lowercasing) never reintroduces one. -/
theorem C10_sanitizePath_no_illegal (p : String) (os : OSType) :
    ∀ c ∈ (sanitizePath p os).data, illegalCharsFor (resolveOS (some os)) c = false := by
  by_cases hp : p = ""
  · subst hp
    intro c hc
    have h0 : sanitizePath "" os = "" := by rw [sanitizePath, if_pos rfl]
    rw [h0] at hc
    exact absurd hc (List.not_mem_nil c)
  · have hs : sanitizePath p os =
        normalizePath ⟨p.data.filter (fun c => !(illegalCharsFor (resolveOS (some os)) c))⟩
          { os := some os } := by
      cases os <;> (rw [sanitizePath, if_neg hp]; rfl)
    rw [hs]
    refine normalizePath_chars ?_ ?_ ?_ ?_
    · intro c hc
      have hc2 : c ∈ p.data.filter (fun c => !(illegalCharsFor (resolveOS (some os)) c)) := hc
      have h2 := List.of_mem_filter hc2
      simpa using h2
    · cases os <;> decide
    · cases os <;> decide
    · intro c hc
      cases os with
      | windows => exact WINDOWS_ILLEGAL_CHARS_toLower hc
      | posix => exact POSIX_ILLEGAL_CHARS_toLower hc
      | auto => exact POSIX_ILLEGAL_CHARS_toLower hc

/-- Witness for C10 at a concrete input. -/
theorem C10_witness : illegalCharsFor (resolveOS (some OSType.windows)) 'a' = false :=
  C10_sanitizePath_no_illegal "a<b" OSType.windows 'a' (by decide)

end PathUtils
